import Mathlib

/-!
Verification development for the slang front-end data-structure layer:
the generic IntervalMap container, the lossless CST (trivia/token/tree)
model, and the LSP RPC helpers.

The IntervalMap implementation and the CST implementation live in
headers that are not part of this source snapshot (only their unit
tests and bindings are); those parts are modelled from the written
specification, as documented on each definition.  The LSP RPC helpers
are translated directly from their source.
-/

set_option maxHeartbeats 1000000

namespace SlangSpec

/-- Modelled from the spec: one stored interval record of the
IntervalMap, a triple of left endpoint, right endpoint and value
(spec section 4.3: "store interval records (left, right, value)"). -/
structure Interval (K V : Type) where
  left : K
  right : K
  value : V
deriving DecidableEq

/-- Modelled from the spec: the implementation header
slang/util/IntervalMap.h is not in this snapshot, so the map is
represented by its observable content — the ascending-by-left-endpoint
sequence of stored intervals that iteration exposes (spec section 4.3:
"expose them as an ascending-by-left-endpoint sequence").  The
leaf/branch tree layout is an internal rebalancing detail the spec
leaves open (section 9). -/
abbrev IntervalMap (K V : Type) := List (Interval K V)

/-- Modelled from the spec: insert places the new record so that the
sequence stays sorted by left endpoint; it goes in front of the first
stored interval whose left endpoint is at least the new left endpoint.
This placement reproduces the concrete iteration orders checked by the
unit tests in src/tests/unittests/IntervalMapTests.cpp. -/
def IntervalMap.insert [LinearOrder K] (l r : K) (v : V) :
    IntervalMap K V → IntervalMap K V
  | [] => [⟨l, r, v⟩]
  | i :: rest =>
    if l ≤ i.left then ⟨l, r, v⟩ :: i :: rest
    else i :: IntervalMap.insert l r v rest

/-- Runs a whole sequence of insertions, starting from the empty map.
Each operation is a triple (left, right, value). -/
def IntervalMap.insertAll [LinearOrder K] (ops : List (K × K × V)) :
    IntervalMap K V :=
  ops.foldl (fun m op => IntervalMap.insert op.1 op.2.1 op.2.2 m) []

/-- Modelled from the spec: empty() is true iff no intervals are
stored (spec section 4.3). -/
def IntervalMap.empty (m : IntervalMap K V) : Bool :=
  m.isEmpty

/-- One step of the incremental bounds tracking: combine the running
(min left, max right) pair with one more stored interval. -/
def boundsStep [LinearOrder K] (acc : Option (K × K)) (i : Interval K V) :
    Option (K × K) :=
  match acc with
  | none => some (i.left, i.right)
  | some (lo, hi) => some (min lo i.left, max hi i.right)

/-- Modelled from the spec: getBounds() is the pair
(min left, max right) over all stored intervals, and is undefined
(here: none) on an empty map (spec section 4.3). -/
def IntervalMap.getBounds [LinearOrder K] (m : IntervalMap K V) :
    Option (K × K) :=
  m.foldl boundsStep none

/-- The whole-structure ordering invariant: left endpoints are
pairwise non-decreasing along the stored sequence. -/
def sortedByLeft [LinearOrder K] (m : IntervalMap K V) : Prop :=
  List.Pairwise (fun a b => a.left ≤ b.left) m

instance [LinearOrder K] (m : IntervalMap K V) :
    Decidable (sortedByLeft m) :=
  List.instDecidablePairwise m

/-- Modelled from the spec: a bidirectional iterator over the map.  In
the observable model it is a position into the ascending sequence;
position length is the end() sentinel. -/
structure Iterator (K V : Type) where
  map : IntervalMap K V
  idx : Nat
deriving DecidableEq

/-- Modelled from the spec: begin(), the iterator at the first
interval in ascending order. -/
def beginIter (m : IntervalMap K V) : Iterator K V := ⟨m, 0⟩

/-- Modelled from the spec: end(), the non-dereferenceable sentinel
one past the last interval. -/
def endIter (m : IntervalMap K V) : Iterator K V := ⟨m, m.length⟩

/-- Modelled from the spec: valid() is true iff the iterator is
dereferenceable, i.e. not at the end() sentinel. -/
def Iterator.valid (it : Iterator K V) : Bool :=
  it.idx < it.map.length

/-- Modelled from the spec: operator++, step to the next interval in
ascending order; stepping past the last element reaches end().
Precondition (not needed for the model to be total): the iterator is
dereferenceable. -/
def Iterator.inc (it : Iterator K V) : Iterator K V :=
  ⟨it.map, it.idx + 1⟩

/-- Modelled from the spec: operator--, step to the previous interval
in ascending order.  Precondition: the iterator has a predecessor
(decrementing begin() is undefined; the model truncates at 0). -/
def Iterator.dec (it : Iterator K V) : Iterator K V :=
  ⟨it.map, it.idx - 1⟩

/-- The interval currently referenced by the iterator, if it is
dereferenceable: bundles the iterator accessors left(), right() and
operator*(). -/
def Iterator.curr (it : Iterator K V) : Option (Interval K V) :=
  it.map.get? it.idx

/-- Repeatedly dereference and increment, with explicit fuel: the
sequence of intervals a forward iteration loop visits. -/
def Iterator.collect : Nat → Iterator K V → List (Interval K V)
  | 0, _ => []
  | fuel + 1, it =>
    if h : it.idx < it.map.length then
      it.map.get ⟨it.idx, h⟩ :: Iterator.collect fuel it.inc
    else []

/-- Forward iteration from begin() to end(): everything a forward
loop over the map visits, in order. -/
def forwardList (m : IntervalMap K V) : List (Interval K V) :=
  Iterator.collect m.length (beginIter m)

/-- Repeatedly decrement and dereference, with explicit fuel: the
sequence of intervals a backward iteration loop (starting at end())
visits. -/
def Iterator.collectBack : Nat → Iterator K V → List (Interval K V)
  | 0, _ => []
  | fuel + 1, it =>
    if h : 0 < it.idx ∧ it.idx ≤ it.map.length then
      it.map.get ⟨it.idx - 1, by omega⟩ :: Iterator.collectBack fuel it.dec
    else []

/-- Backward iteration from end() back to begin(). -/
def backwardList (m : IntervalMap K V) : List (Interval K V) :=
  Iterator.collectBack m.length (endIter m)

/-! ## Basic lemmas about the IntervalMap model -/

section IntervalMapLemmas

variable {K V : Type} [LinearOrder K]

theorem mem_insert_iff (l r : K) (v : V) (m : IntervalMap K V)
    (a : Interval K V) :
    a ∈ IntervalMap.insert l r v m ↔ a = ⟨l, r, v⟩ ∨ a ∈ m := by
  induction m with
  | nil => simp [IntervalMap.insert]
  | cons i rest ih =>
    by_cases h : l ≤ i.left
    · simp [IntervalMap.insert, h]
    · simp [IntervalMap.insert, h, ih]
      tauto

theorem insert_perm (l r : K) (v : V) (m : IntervalMap K V) :
    List.Perm (IntervalMap.insert l r v m) (⟨l, r, v⟩ :: m) := by
  induction m with
  | nil => simp [IntervalMap.insert]
  | cons i rest ih =>
    by_cases h : l ≤ i.left
    · simp [IntervalMap.insert, h]
    · simp only [IntervalMap.insert, h, if_false]
      exact (ih.cons i).trans (List.Perm.swap _ _ _)

theorem sorted_insert (l r : K) (v : V) (m : IntervalMap K V)
    (hm : sortedByLeft m) :
    sortedByLeft (IntervalMap.insert l r v m) := by
  induction m with
  | nil => simp [IntervalMap.insert, sortedByLeft]
  | cons i rest ih =>
    rw [sortedByLeft, List.pairwise_cons] at hm
    by_cases h : l ≤ i.left
    · rw [sortedByLeft, IntervalMap.insert]
      simp only [h, if_true]
      rw [List.pairwise_cons]
      constructor
      · intro b hb
        rcases List.mem_cons.mp hb with rfl | hb
        · exact h
        · exact le_trans h (hm.1 b hb)
      · rw [List.pairwise_cons]
        exact hm
    · rw [sortedByLeft, IntervalMap.insert]
      simp only [h, if_false]
      rw [List.pairwise_cons]
      constructor
      · intro b hb
        rw [mem_insert_iff] at hb
        rcases hb with rfl | hb
        · exact le_of_lt (lt_of_not_le h)
        · exact hm.1 b hb
      · exact ih hm.2

theorem boundsStep_right_comm (acc : Option (K × K))
    (a b : Interval K V) :
    boundsStep (boundsStep acc a) b = boundsStep (boundsStep acc b) a := by
  rcases acc with _ | ⟨lo, hi⟩ <;>
    simp [boundsStep, min_comm, min_left_comm, max_comm, max_left_comm]

theorem foldl_boundsStep_insert (l r : K) (v : V) (m : IntervalMap K V)
    (acc : Option (K × K)) :
    List.foldl boundsStep acc (IntervalMap.insert l r v m) =
      List.foldl boundsStep (boundsStep acc ⟨l, r, v⟩) m := by
  induction m generalizing acc with
  | nil => simp [IntervalMap.insert]
  | cons i rest ih =>
    by_cases h : l ≤ i.left
    · simp [IntervalMap.insert, h]
    · simp only [IntervalMap.insert, h, if_false, List.foldl_cons]
      rw [ih, boundsStep_right_comm]

theorem getBounds_insert (l r : K) (v : V) (m : IntervalMap K V) :
    IntervalMap.getBounds (IntervalMap.insert l r v m) =
      List.foldl boundsStep (boundsStep none ⟨l, r, v⟩) m := by
  rw [IntervalMap.getBounds, foldl_boundsStep_insert]

/-- The fold computing the bounds really produces the minimum left
endpoint and the maximum right endpoint of everything it has seen. -/
theorem boundsFold_char (m : IntervalMap K V) (lo hi : K) :
    ∃ lo2 hi2,
      List.foldl boundsStep (some (lo, hi)) m = some (lo2, hi2) ∧
      (lo2 = lo ∨ lo2 ∈ m.map Interval.left) ∧
      (hi2 = hi ∨ hi2 ∈ m.map Interval.right) ∧
      lo2 ≤ lo ∧ (∀ x ∈ m.map Interval.left, lo2 ≤ x) ∧
      hi ≤ hi2 ∧ (∀ y ∈ m.map Interval.right, y ≤ hi2) := by
  induction m generalizing lo hi with
  | nil => exact ⟨lo, hi, rfl, Or.inl rfl, Or.inl rfl, le_refl _, by simp,
      le_refl _, by simp⟩
  | cons i rest ih =>
    obtain ⟨lo2, hi2, heq, hmeml, hmemr, hlol, hall, hhih, halr⟩ :=
      ih (min lo i.left) (max hi i.right)
    refine ⟨lo2, hi2, ?_, ?_, ?_, ?_, ?_, ?_, ?_⟩
    · simpa [boundsStep] using heq
    · rcases hmeml with h | h
      · rcases le_total lo i.left with hc | hc
        · exact Or.inl (h.trans (min_eq_left hc))
        · refine Or.inr ?_
          rw [h, min_eq_right hc]
          simp
      · exact Or.inr (by simp [h])
    · rcases hmemr with h | h
      · rcases le_total hi i.right with hc | hc
        · refine Or.inr ?_
          rw [h, max_eq_right hc]
          simp
        · exact Or.inl (h.trans (max_eq_left hc))
      · exact Or.inr (by simp [h])
    · exact hlol.trans (min_le_left _ _)
    · intro x hx
      rcases List.mem_cons.mp hx with rfl | hx
      · exact hlol.trans (min_le_right _ _)
      · exact hall x hx
    · exact (le_max_left _ _).trans hhih
    · intro y hy
      rcases List.mem_cons.mp hy with rfl | hy
      · exact (le_max_right _ _).trans hhih
      · exact halr y hy

theorem insertAll_go_perm (ops : List (K × K × V)) (m : IntervalMap K V) :
    List.Perm
      (ops.foldl (fun acc op => IntervalMap.insert op.1 op.2.1 op.2.2 acc) m)
      ((ops.map fun op => (⟨op.1, op.2.1, op.2.2⟩ : Interval K V)) ++ m) := by
  induction ops generalizing m with
  | nil => simp
  | cons op rest ih =>
    simp only [List.foldl_cons, List.map_cons, List.cons_append]
    refine (ih (IntervalMap.insert op.1 op.2.1 op.2.2 m)).trans ?_
    refine (List.Perm.append_left _ (insert_perm _ _ _ m)).trans ?_
    exact List.perm_middle

theorem insertAll_perm (ops : List (K × K × V)) :
    List.Perm (IntervalMap.insertAll ops)
      (ops.map fun op => (⟨op.1, op.2.1, op.2.2⟩ : Interval K V)) := by
  simpa using insertAll_go_perm ops []

theorem insertAll_go_sorted (ops : List (K × K × V)) (m : IntervalMap K V)
    (hm : sortedByLeft m) :
    sortedByLeft
      (ops.foldl (fun acc op => IntervalMap.insert op.1 op.2.1 op.2.2 acc) m) := by
  induction ops generalizing m with
  | nil => exact hm
  | cons op rest ih =>
    exact ih _ (sorted_insert _ _ _ _ hm)

theorem insertAll_sorted (ops : List (K × K × V)) :
    sortedByLeft (IntervalMap.insertAll ops) :=
  insertAll_go_sorted ops [] (by simp [sortedByLeft])

end IntervalMapLemmas

/-! ## Iteration lemmas -/

section IterationLemmas

variable {K V : Type}

theorem collect_eq_drop (fuel : Nat) (it : Iterator K V)
    (h : fuel = it.map.length - it.idx) :
    Iterator.collect fuel it = it.map.drop it.idx := by
  induction fuel generalizing it with
  | zero =>
    have hge : it.map.length ≤ it.idx := by omega
    simp [Iterator.collect, List.drop_eq_nil_of_le hge]
  | succ n ih =>
    have hlt : it.idx < it.map.length := by omega
    rw [Iterator.collect, dif_pos hlt]
    have hrec : Iterator.collect n it.inc = it.map.drop (it.idx + 1) := by
      have := ih it.inc (by simp [Iterator.inc]; omega)
      simpa [Iterator.inc] using this
    rw [hrec]
    exact (List.drop_eq_get_cons hlt).symm

theorem forwardList_eq (m : IntervalMap K V) : forwardList m = m := by
  rw [forwardList, collect_eq_drop m.length (beginIter m) (by simp [beginIter])]
  simp [beginIter]

theorem collectBack_eq_take (fuel : Nat) (it : Iterator K V)
    (hle : it.idx ≤ it.map.length) (h : fuel = it.idx) :
    Iterator.collectBack fuel it = (it.map.take it.idx).reverse := by
  induction fuel generalizing it with
  | zero =>
    rw [Iterator.collectBack, ← h]
    simp
  | succ n ih =>
    have h1 : 0 < it.idx := by omega
    rw [Iterator.collectBack, dif_pos ⟨h1, hle⟩]
    have hrec : Iterator.collectBack n it.dec =
        (it.map.take (it.idx - 1)).reverse := by
      have := ih it.dec (by simp [Iterator.dec]; omega) (by simp [Iterator.dec]; omega)
      simpa [Iterator.dec] using this
    rw [hrec]
    have hidx : it.idx = (it.idx - 1) + 1 := by omega
    have hlt : it.idx - 1 < it.map.length := by omega
    have htake : it.map.take it.idx =
        it.map.take (it.idx - 1) ++ [it.map.get ⟨it.idx - 1, hlt⟩] := by
      conv_lhs => rw [hidx]
      rw [List.take_succ]
      simp [List.getElem?_eq_getElem hlt, List.get_eq_getElem]
    rw [htake, List.reverse_append]
    simp [List.get_eq_getElem]

theorem backwardList_eq (m : IntervalMap K V) : backwardList m = m.reverse := by
  rw [backwardList, collectBack_eq_take m.length (endIter m) (by simp [endIter])
    (by simp [endIter])]
  simp [endIter]

end IterationLemmas

/-! ## Claims about the IntervalMap -/

/-- C1: For every sequence of IntervalMap insertions in which each call
satisfies left ≤ right, after every single insert (that is, for every
prefix of the sequence): forward iteration from begin() to end() visits
the stored intervals in non-decreasing order of left endpoint, and
getBounds() equals the pair (minimum left endpoint, maximum right
endpoint) over all intervals inserted so far. -/
theorem interval_insert_invariants {K V : Type} [LinearOrder K]
    (ops : List (K × K × V))
    (h : ∀ op ∈ ops, op.1 ≤ op.2.1) (k : Nat) :
    sortedByLeft (forwardList (IntervalMap.insertAll (ops.take k))) ∧
    (ops.take k ≠ [] →
      ∃ lo hi,
        IntervalMap.getBounds (IntervalMap.insertAll (ops.take k)) =
          some (lo, hi) ∧
        lo ∈ (ops.take k).map (fun op => op.1) ∧
        hi ∈ (ops.take k).map (fun op => op.2.1) ∧
        (∀ x ∈ (ops.take k).map (fun op => op.1), lo ≤ x) ∧
        (∀ y ∈ (ops.take k).map (fun op => op.2.1), y ≤ hi)) := by
  set ops2 := ops.take k with hops2
  constructor
  · rw [forwardList_eq]
    exact insertAll_sorted ops2
  · intro hne
    have hperm := insertAll_perm (K := K) (V := V) ops2
    have hpl : List.Perm ((IntervalMap.insertAll ops2).map Interval.left)
        (ops2.map fun op => op.1) := by
      have h2 := hperm.map Interval.left
      rwa [List.map_map] at h2
    have hpr : List.Perm ((IntervalMap.insertAll ops2).map Interval.right)
        (ops2.map fun op => op.2.1) := by
      have h2 := hperm.map Interval.right
      rwa [List.map_map] at h2
    rcases hM : IntervalMap.insertAll ops2 with _ | ⟨i, rest⟩
    · exfalso
      have hlen := hperm.length_eq
      rw [hM] at hlen
      simp at hlen
      exact hne (List.length_eq_zero.mp hlen.symm)
    · obtain ⟨lo, hi, heq, hmeml, hmemr, hlol, hall, hhih, halr⟩ :=
        boundsFold_char rest i.left i.right
      rw [hM] at hpl hpr
      refine ⟨lo, hi, ?_, ?_, ?_, ?_, ?_⟩
      · simpa [IntervalMap.getBounds, boundsStep] using heq
      · refine hpl.mem_iff.mp ?_
        rcases hmeml with rfl | hin
        · simp
        · simp [hin]
      · refine hpr.mem_iff.mp ?_
        rcases hmemr with rfl | hin
        · simp
        · simp [hin]
      · intro x hx
        have hx2 := hpl.mem_iff.mpr hx
        rw [List.map_cons] at hx2
        rcases List.mem_cons.mp hx2 with heq2 | hx3
        · rw [heq2]; exact hlol
        · exact hall x hx3
      · intro y hy
        have hy2 := hpr.mem_iff.mpr hy
        rw [List.map_cons] at hy2
        rcases List.mem_cons.mp hy2 with heq2 | hy3
        · rw [heq2]; exact hhih
        · exact halr y hy3

/-- Concrete insertion sequence used to witness the C1 invariants. -/
def c1ops : List (Int × Int × Int) := [(1, 5, 0), (2, 2, 1)]

/-- Witness for C1: the invariants instantiated on a concrete
two-insert sequence, every hypothesis discharged by evaluation. -/
theorem interval_insert_invariants_witness :
    (∀ op ∈ c1ops, op.1 ≤ op.2.1) ∧
    (sortedByLeft (forwardList (IntervalMap.insertAll (c1ops.take 2))) ∧
      (c1ops.take 2 ≠ [] →
        ∃ lo hi,
          IntervalMap.getBounds (IntervalMap.insertAll (c1ops.take 2)) =
            some (lo, hi) ∧
          lo ∈ (c1ops.take 2).map (fun op => op.1) ∧
          hi ∈ (c1ops.take 2).map (fun op => op.2.1) ∧
          (∀ x ∈ (c1ops.take 2).map (fun op => op.1), lo ≤ x) ∧
          (∀ y ∈ (c1ops.take 2).map (fun op => op.2.1), y ≤ hi))) :=
  ⟨by decide, interval_insert_invariants c1ops (by decide) 2⟩

/-- The insertion sequence of the "small num elems in root leaf" unit
test: insert(1,10,1), insert(3,7,2), insert(2,12,3), insert(32,42,4),
insert(3,6,5). -/
def c2ops : List (Int × Int × Int) :=
  [(1, 10, 1), (3, 7, 2), (2, 12, 3), (32, 42, 4), (3, 6, 5)]

/-- C2: Starting from an empty IntervalMap, performing insert(1,10,1),
insert(3,7,2), insert(2,12,3), insert(32,42,4), insert(3,6,5) in that
order yields forward iteration exactly (1,10,1), (2,12,3), (3,6,5),
(3,7,2), (32,42,4) in that order, and getBounds() equals (1,42). -/
theorem small_root_leaf_scenario :
    forwardList (IntervalMap.insertAll c2ops) =
      [⟨1, 10, 1⟩, ⟨2, 12, 3⟩, ⟨3, 6, 5⟩, ⟨3, 7, 2⟩, ⟨32, 42, 4⟩] ∧
    IntervalMap.getBounds (IntervalMap.insertAll c2ops) = some (1, 42) := by
  constructor
  · rw [forwardList_eq]
    decide
  · decide

/-- C4: For every dereferenceable IntervalMap iterator,
decrementing its increment gives it back; if it also has a
predecessor, incrementing its decrement gives it back; incrementing at
the last element reaches end(); and on a map satisfying the ordering
invariant, stepping forward moves to an interval with a left endpoint
no smaller than the current one. -/
theorem iterator_step_roundtrip {K V : Type} [LinearOrder K]
    (it : Iterator K V) (h1 : it.idx < it.map.length) :
    it.inc.dec = it ∧
    (0 < it.idx → it.dec.inc = it) ∧
    (it.idx + 1 = it.map.length → it.inc = endIter it.map) ∧
    (sortedByLeft it.map → ∀ a b : Interval K V,
      it.curr = some a → it.inc.curr = some b → a.left ≤ b.left) := by
  refine ⟨?_, ?_, ?_, ?_⟩
  · simp [Iterator.inc, Iterator.dec]
  · intro hp
    have hx : it.idx - 1 + 1 = it.idx := by omega
    simp [Iterator.inc, Iterator.dec, hx]
  · intro hlast
    simp [Iterator.inc, endIter, hlast]
  · intro hs a b ha hb
    rw [Iterator.curr, List.get?_eq_some] at ha
    rw [Iterator.curr, Iterator.inc] at hb
    simp only at hb
    rw [List.get?_eq_some] at hb
    obtain ⟨hia, hga⟩ := ha
    obtain ⟨hib, hgb⟩ := hb
    rw [sortedByLeft, List.pairwise_iff_get] at hs
    have := hs ⟨it.idx, hia⟩ ⟨it.idx + 1, hib⟩ (by simp)
    rw [hga, hgb] at this
    exact this

/-- Witness for C4: the step laws instantiated on a concrete iterator
over a concrete two-element map. -/
theorem iterator_step_roundtrip_witness :
    ((⟨[⟨1, 2, 0⟩, ⟨3, 4, 1⟩], 1⟩ : Iterator Int Int).idx <
      (⟨[⟨1, 2, 0⟩, ⟨3, 4, 1⟩], 1⟩ : Iterator Int Int).map.length) ∧
    ((⟨[⟨1, 2, 0⟩, ⟨3, 4, 1⟩], 1⟩ : Iterator Int Int).inc.dec =
        (⟨[⟨1, 2, 0⟩, ⟨3, 4, 1⟩], 1⟩ : Iterator Int Int) ∧
      (0 < (⟨[⟨1, 2, 0⟩, ⟨3, 4, 1⟩], 1⟩ : Iterator Int Int).idx →
        (⟨[⟨1, 2, 0⟩, ⟨3, 4, 1⟩], 1⟩ : Iterator Int Int).dec.inc =
          (⟨[⟨1, 2, 0⟩, ⟨3, 4, 1⟩], 1⟩ : Iterator Int Int)) ∧
      ((⟨[⟨1, 2, 0⟩, ⟨3, 4, 1⟩], 1⟩ : Iterator Int Int).idx + 1 =
          (⟨[⟨1, 2, 0⟩, ⟨3, 4, 1⟩], 1⟩ : Iterator Int Int).map.length →
        (⟨[⟨1, 2, 0⟩, ⟨3, 4, 1⟩], 1⟩ : Iterator Int Int).inc =
          endIter (⟨[⟨1, 2, 0⟩, ⟨3, 4, 1⟩], 1⟩ : Iterator Int Int).map) ∧
      (sortedByLeft (⟨[⟨1, 2, 0⟩, ⟨3, 4, 1⟩], 1⟩ : Iterator Int Int).map →
        ∀ a b : Interval Int Int,
          (⟨[⟨1, 2, 0⟩, ⟨3, 4, 1⟩], 1⟩ : Iterator Int Int).curr = some a →
          (⟨[⟨1, 2, 0⟩, ⟨3, 4, 1⟩], 1⟩ : Iterator Int Int).inc.curr = some b →
          a.left ≤ b.left)) :=
  ⟨by decide, iterator_step_roundtrip ⟨[⟨1, 2, 0⟩, ⟨3, 4, 1⟩], 1⟩ (by decide)⟩

/-- C6: insert never signals an error for normal operation: for every
map state and every call with left ≤ right (including a degenerate
point interval with left = right) the call succeeds, producing a map
holding exactly the old intervals plus the new one; inserting an
interval identical to one already stored retains both copies, so the
container is a multiset over intervals. -/
theorem insert_total_multiset {K V : Type} [LinearOrder K]
    [DecidableEq V] (m : IntervalMap K V) (l r : K) (v : V) (h : l ≤ r) :
    List.Perm (IntervalMap.insert l r v m) (⟨l, r, v⟩ :: m) ∧
    (IntervalMap.insert l r v m).length = m.length + 1 ∧
    List.count (⟨l, r, v⟩ : Interval K V) (IntervalMap.insert l r v m) =
      List.count (⟨l, r, v⟩ : Interval K V) m + 1 := by
  refine ⟨insert_perm l r v m, ?_, ?_⟩
  · rw [(insert_perm l r v m).length_eq]
    simp
  · rw [(insert_perm l r v m).count_eq]
    simp

/-- Witness for C6: a degenerate point interval (5,5) that duplicates
an interval already stored is inserted and both copies are retained. -/
theorem insert_total_multiset_witness :
    ((5 : Int) ≤ 5) ∧
    (List.Perm (IntervalMap.insert 5 5 (9 : Int) [⟨2, 3, 7⟩, ⟨5, 5, 9⟩])
        (⟨5, 5, 9⟩ :: [⟨2, 3, 7⟩, ⟨5, 5, 9⟩]) ∧
      (IntervalMap.insert 5 5 (9 : Int) [⟨2, 3, 7⟩, ⟨5, 5, 9⟩]).length =
        ([⟨2, 3, 7⟩, ⟨5, 5, 9⟩] : IntervalMap Int Int).length + 1 ∧
      List.count (⟨5, 5, 9⟩ : Interval Int Int)
          (IntervalMap.insert 5 5 (9 : Int) [⟨2, 3, 7⟩, ⟨5, 5, 9⟩]) =
        List.count (⟨5, 5, 9⟩ : Interval Int Int)
          [⟨2, 3, 7⟩, ⟨5, 5, 9⟩] + 1) :=
  ⟨by decide, insert_total_multiset [⟨2, 3, 7⟩, ⟨5, 5, 9⟩] 5 5 9 (by decide)⟩

/-- C7: An empty IntervalMap (one on which no insert has been
performed) satisfies empty() = true, begin() = end(), and
begin().valid() = false. -/
theorem empty_map_properties (K V : Type) [LinearOrder K] :
    IntervalMap.insertAll ([] : List (K × K × V)) = ([] : IntervalMap K V) ∧
    IntervalMap.empty ([] : IntervalMap K V) = true ∧
    beginIter ([] : IntervalMap K V) = endIter ([] : IntervalMap K V) ∧
    (beginIter ([] : IntervalMap K V)).valid = false :=
  ⟨rfl, rfl, rfl, rfl⟩

/-! ## The branching-inserts scenario (C3) -/

/-- Inserting above every stored left endpoint appends at the end of
the ascending sequence. -/
theorem insert_append_of_forall_lt {K V : Type} [LinearOrder K]
    (l r : K) (v : V) (m : IntervalMap K V)
    (h : ∀ i ∈ m, i.left < l) :
    IntervalMap.insert l r v m = m ++ [⟨l, r, v⟩] := by
  induction m with
  | nil => rfl
  | cons i rest ih =>
    have hi : i.left < l := h i (by simp)
    rw [IntervalMap.insert, if_neg (not_le.mpr hi)]
    rw [ih fun j hj => h j (List.mem_cons_of_mem i hj)]
    simp

/-- The insertion sequence of the branching unit test: for i from 1 to
n, insert the interval (10 i, 10 i + 5) with value i. -/
def branchOps (n : Nat) : List (Int × Int × Int) :=
  (List.range n).map fun (j : Nat) =>
    (10 * ((j : Int) + 1), 10 * ((j : Int) + 1) + 5, (j : Int) + 1)

/-- The stored sequence those inserts are expected to produce: the
entry at position j (0-based) is the interval for i = j + 1. -/
def branchExpected (n : Nat) : IntervalMap Int Int :=
  (List.range n).map fun (j : Nat) =>
    ⟨10 * ((j : Int) + 1), 10 * ((j : Int) + 1) + 5, (j : Int) + 1⟩

theorem branch_insertAll (n : Nat) :
    IntervalMap.insertAll (branchOps n) = branchExpected n := by
  induction n with
  | zero => rfl
  | succ n ih =>
    rw [branchOps, List.range_succ, List.map_append]
    rw [IntervalMap.insertAll, List.foldl_append]
    rw [show (List.range n).map (fun (j : Nat) =>
        (10 * ((j : Int) + 1), 10 * ((j : Int) + 1) + 5, (j : Int) + 1)) =
      branchOps n from rfl]
    rw [show List.foldl
        (fun m op => IntervalMap.insert op.1 op.2.1 op.2.2 m) [] (branchOps n) =
      IntervalMap.insertAll (branchOps n) from rfl, ih]
    simp only [List.map_cons, List.map_nil, List.foldl_cons, List.foldl_nil]
    rw [insert_append_of_forall_lt]
    · rw [branchExpected, branchExpected, List.range_succ, List.map_append]
      rfl
    · intro i hi
      rw [branchExpected, List.mem_map] at hi
      obtain ⟨j, hj, rfl⟩ := hi
      rw [List.mem_range] at hj
      simp only
      omega

theorem branch_bounds (n : Nat) :
    IntervalMap.getBounds (branchExpected (n + 1)) =
      some (10, 10 * ((n : Int) + 1) + 5) := by
  induction n with
  | zero => decide
  | succ n ih =>
    rw [branchExpected, List.range_succ, List.map_append]
    rw [show (List.range (n + 1)).map (fun (j : Nat) =>
        (⟨10 * ((j : Int) + 1), 10 * ((j : Int) + 1) + 5, (j : Int) + 1⟩ :
          Interval Int Int)) = branchExpected (n + 1) from rfl]
    rw [IntervalMap.getBounds, List.foldl_append]
    rw [show List.foldl boundsStep none (branchExpected (n + 1)) =
      IntervalMap.getBounds (branchExpected (n + 1)) from rfl, ih]
    simp only [List.map_cons, List.map_nil, List.foldl_cons, List.foldl_nil,
      boundsStep]
    rw [Option.some_inj, Prod.ext_iff]
    constructor
    · simp only
      omega
    · simp only
      omega

/-- Counterexample to C3 as stated: with i ranging over the half-open
interval from 1 to 999 (997 ... 998 values, i.e. 998 inserts), the map
holds 998 entries, not 999, and its bounds are (10, 9985), not
(10, 9995).  The unit test actually iterates i from 1 to 999
inclusive. -/
theorem branching_range_off_by_one :
    ¬ ((forwardList (IntervalMap.insertAll (branchOps 998))).length = 999 ∧
       IntervalMap.getBounds (IntervalMap.insertAll (branchOps 998)) =
         some (10, 9995)) := by
  rw [forwardList_eq, branch_insertAll]
  intro hcl
  have h1 : (branchExpected 998).length = 998 := by
    rw [branchExpected]
    simp
  rw [h1] at hcl
  exact absurd hcl.1 (by decide)

/-- C3 (amended): inserting the interval (10 i, 10 i + 5) with value i
for every i in the range [1, 1000) gives, after the loop:
getBounds() = (10, 9995); forward iteration yields exactly 999
entries, the entry for each i being (10 i, 10 i + 5, i) in ascending i
order; and iterating backward from end() reproduces exactly the same
entries in reverse order. -/
theorem branching_inserts_scenario :
    IntervalMap.getBounds (IntervalMap.insertAll (branchOps 999)) =
      some (10, 9995) ∧
    forwardList (IntervalMap.insertAll (branchOps 999)) =
      branchExpected 999 ∧
    (forwardList (IntervalMap.insertAll (branchOps 999))).length = 999 ∧
    backwardList (IntervalMap.insertAll (branchOps 999)) =
      (forwardList (IntervalMap.insertAll (branchOps 999))).reverse := by
  rw [forwardList_eq, backwardList_eq, branch_insertAll]
  refine ⟨?_, rfl, ?_, rfl⟩
  · have := branch_bounds 998
    rw [show ((998 : Nat) : Int) + 1 = 999 from by decide] at this
    rw [show (999 : Nat) = 998 + 1 from rfl, this]
    decide
  · rw [branchExpected]
    simp

/-! ## CST model: trivia, tokens, tree, text reconstruction -/

/-- Modelled from the spec: Trivia is non-semantic source material
attached to a token — a kind tag plus its raw text (the structured and
skipped-token variants carry text the same way for reconstruction
purposes).  The implementation header is not in this snapshot. -/
structure Trivia where
  kind : Nat
  raw : String
deriving DecidableEq

/-- Modelled from the spec: a Token is a kind tag, the ordered
sequence of preceding Trivia, its raw source text, a separately
computed value text, a source location (opaque coordinate), and the
isMissing flag set on tokens synthesized by error recovery.  The typed
payload variants are irrelevant to text reconstruction and equality
and are omitted.  The implementation header is not in this
snapshot. -/
structure Token where
  kind : Nat
  trivia : List Trivia
  rawText : String
  valueText : String
  location : Nat
  isMissing : Bool
deriving DecidableEq

/-- Modelled from the spec: a SyntaxNode is a kind tag plus positional
children, each child being either a token or a nested node (the
TokenOrSyntax tagged reference); getChild exposes exactly the entries
of the child list. -/
inductive SyntaxNode where
  | leaf (tok : Token)
  | node (kind : Nat) (children : List SyntaxNode)

/-- Concatenated raw text of a trivia sequence. -/
def triviaListText : List Trivia → String
  | [] => ""
  | t :: ts => t.raw ++ triviaListText ts

/-- Modelled from the spec: the full text a single token contributes
to reconstruction — its leading trivia followed by its raw text; a
missing token contributes zero bytes (spec sections 4.1 and 4.2, and
scenario 5). -/
def tokenFullText (tok : Token) : String :=
  if tok.isMissing then "" else triviaListText tok.trivia ++ tok.rawText

mutual

/-- Modelled from the spec: toFullString() concatenates, over the
in-order traversal, every token's trivia and raw text, with zero
contribution from missing tokens (the "include missing" diagnostic
mode is not modelled). -/
def toFullString : SyntaxNode → String
  | .leaf tok => tokenFullText tok
  | .node _ cs => childrenFullString cs

/-- toFullString over a child list, left to right. -/
def childrenFullString : List SyntaxNode → String
  | [] => ""
  | c :: cs => toFullString c ++ childrenFullString cs

end

mutual

/-- The in-order sequence of tokens at the leaves of a tree: the token
stream the external parser consumed while building it, with missing
tokens at the positions where error recovery synthesized them. -/
def leavesOf : SyntaxNode → List Token
  | .leaf tok => [tok]
  | .node _ cs => childrenLeaves cs

/-- Leaves of a child list, left to right. -/
def childrenLeaves : List SyntaxNode → List Token
  | [] => []
  | c :: cs => leavesOf c ++ childrenLeaves cs

end

/-- Modelled from the spec: the original input text is what the
external lossless lexer consumed — the concatenation, in stream order,
of each token's leading trivia and raw text, where the missing tokens
synthesized by error recovery were never in the input and contribute
zero bytes. -/
def streamText : List Token → String
  | [] => ""
  | tok :: rest => tokenFullText tok ++ streamText rest

theorem streamText_append (a b : List Token) :
    streamText (a ++ b) = streamText a ++ streamText b := by
  induction a with
  | nil => simp [streamText]
  | cons tok rest ih =>
    simp [streamText, ih, String.append_assoc]

mutual

theorem toFullString_eq_streamText (t : SyntaxNode) :
    toFullString t = streamText (leavesOf t) := by
  match t with
  | .leaf tok =>
    simp [toFullString, leavesOf, streamText]
  | .node k cs =>
    rw [toFullString, leavesOf]
    exact childrenFullString_eq_streamText cs

theorem childrenFullString_eq_streamText (cs : List SyntaxNode) :
    childrenFullString cs = streamText (childrenLeaves cs) := by
  match cs with
  | [] => rfl
  | c :: rest =>
    rw [childrenFullString, childrenLeaves, streamText_append,
      toFullString_eq_streamText c,
      childrenFullString_eq_streamText rest]

end

theorem streamText_filter_missing (s : List Token) :
    streamText s = streamText (s.filter fun tok => !tok.isMissing) := by
  induction s with
  | nil => rfl
  | cons tok rest ih =>
    by_cases h : tok.isMissing
    · simp [streamText, List.filter, h, tokenFullText, ih]
    · simp [streamText, List.filter, h, ih]

/-- C5: For every parsed syntax tree, including trees produced from
erroneous input via error recovery (whose leaf sequence is the token
stream with zero-length missing tokens synthesized into it), calling
toFullString() on the root returns exactly the original input text
byte-for-byte — the concatenation of the stream's token texts;
missing tokens contribute zero bytes to the result (filtering them out
of the stream changes nothing), and traversal still visits all other
children normally. -/
theorem toFullString_reconstructs_input (t : SyntaxNode)
    (stream : List Token) (h : leavesOf t = stream) :
    toFullString t = streamText stream ∧
    streamText stream =
      streamText (stream.filter fun tok => !tok.isMissing) := by
  subst h
  exact ⟨toFullString_eq_streamText t, streamText_filter_missing _⟩

/-- A real token with raw text "ab" and one space of leading trivia. -/
def tokA : Token := ⟨1, [⟨0, " "⟩], "ab", "ab", 0, false⟩

/-- A missing token synthesized by error recovery: zero-length raw
text, isMissing set. -/
def tokMiss : Token := ⟨2, [], "", "", 3, true⟩

/-- A real token with raw text "cd". -/
def tokB : Token := ⟨3, [], "cd", "cd", 3, false⟩

/-- Scenario 5 tree: a missing token between two real-text siblings. -/
def exTree : SyntaxNode := .node 7 [.leaf tokA, .leaf tokMiss, .leaf tokB]

/-- Witness for C5 on the scenario-5 tree: the hypothesis (the tree's
leaves are the given stream) is discharged by evaluation, and the
reconstruction equals the two real siblings' text alone. -/
theorem toFullString_reconstructs_input_witness :
    leavesOf exTree = [tokA, tokMiss, tokB] ∧
    (toFullString exTree = streamText [tokA, tokMiss, tokB] ∧
      streamText [tokA, tokMiss, tokB] =
        streamText ([tokA, tokMiss, tokB].filter fun tok => !tok.isMissing)) :=
  ⟨by simp [exTree, leavesOf, childrenLeaves],
    toFullString_reconstructs_input exTree [tokA, tokMiss, tokB]
      (by simp [exTree, leavesOf, childrenLeaves])⟩

/-- Translated from the spec for the binding in src/unnamed/part_000
(the Token implementation is external to this snapshot): operator== is
structural — same kind and same raw text, independent of location. -/
def tokenEq (a b : Token) : Bool :=
  a.kind == b.kind && a.rawText == b.rawText

/-- C8: Token equality is structural: two tokens compare equal exactly
when they have the same kind tag and the same raw source text,
independent of their source locations; in particular two tokens with
identical kind and raw text but different locations (or different
trivia, value text, or missing flags) compare equal. -/
theorem token_equality_structural :
    (∀ a b : Token, tokenEq a b = true ↔
      a.kind = b.kind ∧ a.rawText = b.rawText) ∧
    (∀ (k : Nat) (tr1 tr2 : List Trivia) (raw vt1 vt2 : String)
        (loc1 loc2 : Nat) (m1 m2 : Bool),
      tokenEq ⟨k, tr1, raw, vt1, loc1, m1⟩ ⟨k, tr2, raw, vt2, loc2, m2⟩ =
        true) := by
  constructor
  · intro a b
    simp [tokenEq]
  · intro k tr1 tr2 raw vt1 vt2 loc1 loc2 m1 m2
    simp [tokenEq]

/-! ## LSP RPC helpers, translated from src/tools/lsp (RPC.h, RPC.cpp) -/

/-- Translated from RPC.h: END_LINE is "\r" — getline already consumed
the newline, so lines keep only the carriage return. -/
def END_LINE : String := "\r"

/-- Translated from RPC.h. -/
def CONTENT_TYPE : String := "Content-Type: "

/-- Translated from RPC.h. -/
def DEFAULT_CONTENT_TYPE : String := "application/vscode-jsonrpc; charset=utf-8"

/-- Translated from RPC.h. -/
def CONTENT_LENGTH : String := "Content-Length: "

/-- C++ std::string::substr(pos, count): at most count characters
starting at pos, clamped at the end of the string.  (The C++
out-of-range case cannot fire at the call sites modelled here: pos is
the length of a prefix the line was just compared equal to.) -/
def cppSubstr (s : String) (pos count : Nat) : String :=
  ((s.data.drop pos).take count).asString

/-- C++ std::stoul on the call-site inputs: parses the leading decimal
digit run of the string; no leading digit means std::invalid_argument
is thrown (none).  The C-locale whitespace/sign skip is not exercised
by LSP header values and is not modelled. -/
def stoulDigits (s : String) : Option Nat :=
  let ds := s.data.takeWhile Char.isDigit
  if ds.isEmpty then none
  else some (ds.foldl (fun a c => a * 10 + (c.toNat - 48)) 0)

/-- Outcome of LSPHeader::fromStdin: a parsed header, one of the two
declared exceptions, a std::stoul exception, or the unmodelled
behavior when stdin ends before the blank terminator line (the real
code keeps looping on a failed getline). -/
inductive FromStdinResult where
  | ok (contentLength : Nat) (contentType : String)
  | noContentLength
  | noDefaultContentType
  | stoulFailure
  | inputExhausted
deriving DecidableEq

/-- Translated from LSPHeader::fromStdin (src/unnamed/part_002,
RPC.cpp lines 356-390).  The stdin stream is the list of lines
std::getline returns: newline stripped, carriage return kept.  The
loop consumes lines until one equals "\r"; a line whose first 14
characters equal "Content-Type: " stores
substr(14, line.length() - 1); a line whose first 16 characters equal
"Content-Length: " stores stoul(substr(16, line.length() - 1)) and
marks the length parsed.  After the loop the function throws
NoContentLengthException when no length was parsed, then throws
NoDefaultContentType when the stored content type differs from
DEFAULT_CONTENT_TYPE (its initial value from the constructor), and
otherwise returns the header.  State: remaining lines,
contentLengthParsed, contentLength, contentType. -/
def fromStdinGo : List String → Bool → Nat → String → FromStdinResult
  | [], _, _, _ => .inputExhausted
  | line :: rest, clParsed, cl, ct =>
    if line = END_LINE then
      if !clParsed then .noContentLength
      else if ct ≠ DEFAULT_CONTENT_TYPE then .noDefaultContentType
      else .ok cl ct
    else if cppSubstr line 0 CONTENT_TYPE.length = CONTENT_TYPE then
      fromStdinGo rest clParsed cl
        (cppSubstr line CONTENT_TYPE.length (line.length - END_LINE.length))
    else if cppSubstr line 0 CONTENT_LENGTH.length = CONTENT_LENGTH then
      match stoulDigits
          (cppSubstr line CONTENT_LENGTH.length
            (line.length - END_LINE.length)) with
      | none => .stoulFailure
      | some n => fromStdinGo rest true n ct
    else fromStdinGo rest clParsed cl ct

/-- LSPHeader::fromStdin, starting from the constructor state: length
not yet parsed, content type defaulted to DEFAULT_CONTENT_TYPE. -/
def fromStdin (lines : List String) : FromStdinResult :=
  fromStdinGo lines false 0 DEFAULT_CONTENT_TYPE

/-- C9 evaluation: on a well-formed header whose Content-Type line
carries exactly the default content type, fromStdin throws
NoDefaultContentType — the substr count line.length() - 1 keeps the
trailing carriage return in the stored value, so the comparison with
DEFAULT_CONTENT_TYPE can never succeed when a Content-Type line is
present.  Without a Content-Type line the default applies and the
header is returned with the parsed length; without a Content-Length
line NoContentLengthException is thrown first. -/
theorem fromStdin_header_cases :
    fromStdin ["Content-Length: 56\r",
        "Content-Type: application/vscode-jsonrpc; charset=utf-8\r",
        "\r"] =
      FromStdinResult.noDefaultContentType ∧
    fromStdin ["Content-Length: 56\r", "\r"] =
      FromStdinResult.ok 56 DEFAULT_CONTENT_TYPE ∧
    fromStdin ["Content-Type: application/vscode-jsonrpc; charset=utf-8\r",
        "\r"] =
      FromStdinResult.noContentLength := by
  refine ⟨by decide, by decide, by decide⟩

/-- Translated from RPC.h: the predefined position encoding kinds. -/
inductive PositionEncodingKind where
  | UTF8
  | UTF16
  | UTF32
deriving DecidableEq

/-- Translated from PositionEncodingKindToString (src/unnamed/part_002,
RPC.cpp lines 315-324). -/
def PositionEncodingKindToString : PositionEncodingKind → String
  | .UTF8 => "utf-8"
  | .UTF16 => "utf-16"
  | .UTF32 => "utf-32"

/-- Translated from PositionEncodingKindFromString
(src/unnamed/part_002, RPC.cpp lines 326-334); none models throwing
UnknownEnumVariant. -/
def PositionEncodingKindFromString (s : String) :
    Option PositionEncodingKind :=
  if s = "utf-8" then some .UTF8
  else if s = "utf-16" then some .UTF16
  else if s = "utf-32" then some .UTF32
  else none

/-- C10: The position-encoding string conversions are mutually
inverse: for every PositionEncodingKind k,
PositionEncodingKindFromString (PositionEncodingKindToString k) = k,
and PositionEncodingKindFromString throws UnknownEnumVariant (here:
returns none) for every string other than "utf-8", "utf-16" and
"utf-32". -/
theorem position_encoding_roundtrip :
    (∀ k, PositionEncodingKindFromString (PositionEncodingKindToString k) =
      some k) ∧
    (∀ s : String, s ≠ "utf-8" → s ≠ "utf-16" → s ≠ "utf-32" →
      PositionEncodingKindFromString s = none) := by
  constructor
  · intro k
    cases k <;> decide
  · intro s h8 h16 h32
    simp [PositionEncodingKindFromString, h8, h16, h32]

/-- Witness for C10: the non-variant branch instantiated on the
concrete string "utf-7". -/
theorem position_encoding_roundtrip_witness :
    ("utf-7" ≠ "utf-8" ∧ "utf-7" ≠ "utf-16" ∧ "utf-7" ≠ "utf-32") ∧
    PositionEncodingKindFromString "utf-7" = none :=
  ⟨⟨by decide, by decide, by decide⟩,
    position_encoding_roundtrip.2 "utf-7" (by decide) (by decide)
      (by decide)⟩

end SlangSpec
